import Mathlib

/-!
Verification development for `misconfig-configdiffvisualizer` (`main.py`).

The Python source is shallowly embedded: strings are `List Char`, pure
functions become Lean functions, the external collaborators (the
`diff_match_patch` library, the `json`/`yaml` parsers and the lint
subprocesses) are either modelled from the specification or passed in as
explicit parameters.  Fallible code returns `Option`.
-/

namespace MC

/-- The file types distinguished by the tool (the `-t` choices in `main.py`). -/
inductive FileType where
  | yaml
  | json
  | text
deriving DecidableEq

/-- The extension of a path, following `os.path.splitext` as used by
`detect_file_type` (main.py line 118): take the part of the basename from its
last dot onwards, except that a dot preceded only by dots (within the
basename) yields no extension. -/
def splitextExt (p : List Char) : List Char :=
  let base := (p.reverse.takeWhile (fun c => c ≠ '/')).reverse
  let afterRev := base.reverse.takeWhile (fun c => c ≠ '.')
  if afterRev.length = base.length then []
  else if (base.take (base.length - afterRev.length - 1)).all (fun c => c = '.') then []
  else '.' :: afterRev.reverse

/-- `detect_file_type` from main.py (lines 108-125): lowercase the extension,
map `.yaml`/`.yml` to yaml, `.json` to json, anything else to text.
(`Char.toLower` matches Python `str.lower` on the ASCII extensions compared
here.) -/
def detect_file_type (p : List Char) : FileType :=
  let ext := (splitextExt p).map Char.toLower
  if ext = ".yaml".data ∨ ext = ".yml".data then FileType.yaml
  else if ext = ".json".data then FileType.json
  else FileType.text

/-- The extension-to-type table as the spec words it: `.yaml`/`.yml` map to
yaml, `.json` maps to json, every other extension maps to text. -/
def extToType (ext : List Char) : FileType :=
  if ext = ".yaml".data ∨ ext = ".yml".data then FileType.yaml
  else if ext = ".json".data then FileType.json
  else FileType.text

/-- Outcome of one external lint-tool invocation, modelling
`subprocess.run([tool, path], check=True, ...)` in `validate_file`:
the call succeeds, raises `CalledProcessError`, or raises
`FileNotFoundError` because the tool is absent from the host. -/
inductive LintOutcome where
  | ok
  | failed
  | notFound
deriving DecidableEq

/-- `validate_file` from main.py (lines 31-68).  `run tool path` models the
subprocess call for the given tool name. -/
def validate_file (run : List Char → List Char → LintOutcome) (path : List Char)
    (ft : FileType) : Bool :=
  match ft with
  | FileType.yaml =>
      match run "yamllint".data path with
      | LintOutcome.ok => true
      | LintOutcome.notFound => true
      | LintOutcome.failed => false
  | FileType.json =>
      match run "jsonlint".data path with
      | LintOutcome.ok => true
      | LintOutcome.notFound => true
      | LintOutcome.failed => false
  | FileType.text => true

/-- Python `str` whitespace, per `str.isspace`/`str.strip`: ASCII whitespace
control characters, the information separators, space, NEL, NBSP and the
Unicode space/line/paragraph separators. -/
def pyIsSpace (c : Char) : Bool :=
  (9 ≤ c.toNat && c.toNat ≤ 13) || (28 ≤ c.toNat && c.toNat ≤ 31) ||
  c.toNat = 32 || c.toNat = 133 || c.toNat = 160 || c.toNat = 5760 ||
  (8192 ≤ c.toNat && c.toNat ≤ 8202) || c.toNat = 8232 || c.toNat = 8233 ||
  c.toNat = 8239 || c.toNat = 8287 || c.toNat = 12288

/-- The line boundaries of Python `str.splitlines`: LF, CR, VT, FF, FS, GS,
RS, NEL, LS, PS (with CRLF counted as a single boundary, handled in
`pySplitlines`). -/
def pyIsLineBreak (c : Char) : Bool :=
  c.toNat = 10 || c.toNat = 13 || c.toNat = 11 || c.toNat = 12 ||
  c.toNat = 28 || c.toNat = 29 || c.toNat = 30 || c.toNat = 133 ||
  c.toNat = 8232 || c.toNat = 8233

/-- Prepend a character to the first line of a line list (the first line is
empty when the list is empty). -/
def consHead (c : Char) : List (List Char) → List (List Char)
  | [] => [[c]]
  | l :: ls => (c :: l) :: ls

/-- Python `str.splitlines` on a character list: a line ends at every line
boundary (CRLF counting once), a final segment without a terminator is a
line, and the empty string has no lines. -/
def pySplitlines : List Char → List (List Char)
  | [] => []
  | [c] => if pyIsLineBreak c then [[]] else [[c]]
  | c :: d :: cs =>
      if c = '\r' ∧ d = '\n' then [] :: pySplitlines cs
      else if pyIsLineBreak c then [] :: pySplitlines (d :: cs)
      else consHead c (pySplitlines (d :: cs))

/-- Python `str.strip`: drop leading and trailing whitespace characters. -/
def pyStrip (l : List Char) : List Char :=
  ((l.dropWhile pyIsSpace).reverse.dropWhile pyIsSpace).reverse

/-- Python `'\n'.join`: concatenate with a single line feed between entries. -/
def joinLines : List (List Char) → List Char
  | [] => []
  | [l] => l
  | l :: m :: ls => l ++ '\n' :: joinLines (m :: ls)

/-- The whitespace normalization applied by `generate_diff_html` when
`ignore_whitespace` is set (main.py lines 139-141):
`'\n'.join(line.strip() for line in text.splitlines())`. -/
def normalizeWhitespace (s : List Char) : List Char :=
  joinLines ((pySplitlines s).map pyStrip)

theorem pySplitlines_cons_cons (c d : Char) (cs : List Char) :
    pySplitlines (c :: d :: cs) =
      if c = '\r' ∧ d = '\n' then [] :: pySplitlines cs
      else if pyIsLineBreak c then [] :: pySplitlines (d :: cs)
      else consHead c (pySplitlines (d :: cs)) := rfl

theorem pySplitlines_single (c : Char) :
    pySplitlines [c] = if pyIsLineBreak c then [[]] else [[c]] := rfl

theorem head?_dropWhile_false {α : Type} (p : α → Bool) (l : List α) (c : α)
    (h : (l.dropWhile p).head? = some c) : p c = false := by
  induction l with
  | nil => simp [List.dropWhile] at h
  | cons a l ih =>
      rw [List.dropWhile_cons] at h
      by_cases hp : p a
      · rw [if_pos hp] at h
        exact ih h
      · rw [if_neg hp] at h
        simp only [List.head?_cons, Option.some.injEq] at h
        subst h
        simpa using hp

theorem dropWhile_eq_self_of_head {α : Type} (p : α → Bool) (l : List α)
    (h : ∀ c, l.head? = some c → p c = false) : l.dropWhile p = l := by
  cases l with
  | nil => rfl
  | cons a l =>
      rw [List.dropWhile_cons, if_neg]
      simp [h a rfl]

theorem getLast?_dropWhile {α : Type} (p : α → Bool) (l : List α)
    (h : l.dropWhile p ≠ []) : (l.dropWhile p).getLast? = l.getLast? := by
  conv_rhs => rw [← List.takeWhile_append_dropWhile (p := p) (l := l)]
  rw [List.getLast?_append_of_ne_nil _ h]

theorem mem_of_getLast?_eq {α : Type} {l : List α} {a : α}
    (h : l.getLast? = some a) : a ∈ l := by
  induction l with
  | nil => simp at h
  | cons b l ih =>
      cases l with
      | nil =>
          simp only [List.getLast?_singleton, Option.some.injEq] at h
          simp [h]
      | cons c t =>
          rw [List.getLast?_cons_cons] at h
          exact List.mem_cons_of_mem _ (ih h)

theorem pyStrip_head?_false (l : List Char) (c : Char)
    (h : (pyStrip l).head? = some c) : pyIsSpace c = false := by
  unfold pyStrip at h
  rw [List.head?_reverse] at h
  have hz : (l.dropWhile pyIsSpace).reverse.dropWhile pyIsSpace ≠ [] := by
    intro e
    rw [e] at h
    simp at h
  rw [getLast?_dropWhile _ _ hz, List.getLast?_reverse] at h
  exact head?_dropWhile_false _ _ _ h

theorem pyStrip_idem (l : List Char) : pyStrip (pyStrip l) = pyStrip l := by
  have h1 : (pyStrip l).dropWhile pyIsSpace = pyStrip l :=
    dropWhile_eq_self_of_head _ _ (fun c hc => pyStrip_head?_false l c hc)
  show (((pyStrip l).dropWhile pyIsSpace).reverse.dropWhile pyIsSpace).reverse = pyStrip l
  rw [h1]
  show (((((l.dropWhile pyIsSpace).reverse.dropWhile pyIsSpace).reverse).reverse).dropWhile
      pyIsSpace).reverse = pyStrip l
  rw [List.reverse_reverse]
  rw [dropWhile_eq_self_of_head _ _ (fun c hc => head?_dropWhile_false _ _ _ hc)]
  rfl

theorem mem_pyStrip {l : List Char} {c : Char} (h : c ∈ pyStrip l) : c ∈ l := by
  unfold pyStrip at h
  rw [List.mem_reverse] at h
  have h2 := (List.dropWhile_sublist (l := (l.dropWhile pyIsSpace).reverse)
    (p := pyIsSpace)).mem h
  rw [List.mem_reverse] at h2
  exact (List.dropWhile_sublist (l := l) (p := pyIsSpace)).mem h2

theorem pyIsSpace_of_break {c : Char} (h : pyIsLineBreak c = true) :
    pyIsSpace c = true := by
  simp only [pyIsLineBreak, Bool.or_eq_true, decide_eq_true_eq] at h
  simp only [pyIsSpace, Bool.or_eq_true, Bool.and_eq_true, decide_eq_true_eq]
  omega

theorem pySplitlines_no_break (s : List Char) :
    ∀ l ∈ pySplitlines s, ∀ c ∈ l, pyIsLineBreak c = false := by
  induction s using pySplitlines.induct with
  | case1 => simp [pySplitlines]
  | case2 c h =>
      intro l hl
      rw [pySplitlines_single, if_pos h] at hl
      simp only [List.mem_singleton] at hl
      subst hl
      simp
  | case3 c h =>
      intro l hl
      rw [pySplitlines_single, if_neg h] at hl
      simp only [List.mem_singleton] at hl
      subst hl
      intro c' hc'
      simp only [List.mem_singleton] at hc'
      subst hc'
      simpa using h
  | case4 c d cs h ih =>
      intro l hl
      rw [pySplitlines_cons_cons, if_pos h] at hl
      rcases List.mem_cons.mp hl with rfl | hl
      · simp
      · exact ih l hl
  | case5 c d cs h hbr ih =>
      intro l hl
      rw [pySplitlines_cons_cons, if_neg h, if_pos hbr] at hl
      rcases List.mem_cons.mp hl with rfl | hl
      · simp
      · exact ih l hl
  | case6 c d cs h hbr ih =>
      intro l hl
      rw [pySplitlines_cons_cons, if_neg h, if_neg hbr] at hl
      cases hs : pySplitlines (d :: cs) with
      | nil =>
          rw [hs] at hl
          simp only [consHead, List.mem_singleton] at hl
          subst hl
          intro c' hc'
          simp only [List.mem_singleton] at hc'
          subst hc'
          simpa using hbr
      | cons l0 ls =>
          rw [hs] at hl
          simp only [consHead] at hl
          rcases List.mem_cons.mp hl with rfl | hl
          · intro c' hc'
            rcases List.mem_cons.mp hc' with rfl | hc'
            · simpa using hbr
            · exact ih l0 (hs ▸ List.mem_cons_self l0 ls) c' hc'
          · exact ih l (hs ▸ List.mem_cons_of_mem l0 hl)

theorem pySplitlines_of_no_break (l : List Char) (hne : l ≠ [])
    (h : ∀ c ∈ l, pyIsLineBreak c = false) : pySplitlines l = [l] := by
  induction l with
  | nil => exact absurd rfl hne
  | cons a l ih =>
      cases l with
      | nil =>
          rw [pySplitlines_single, if_neg]
          simp [h a (List.mem_cons_self a [])]
      | cons b bs =>
          rw [pySplitlines_cons_cons, if_neg, if_neg]
          · rw [ih (List.cons_ne_nil b bs) (fun c hc => h c (List.mem_cons_of_mem a hc))]
            rfl
          · simp [h a (List.mem_cons_self a (b :: bs))]
          · rintro ⟨h1, -⟩
            have := h a (List.mem_cons_self a (b :: bs))
            rw [h1] at this
            exact absurd this (by decide)

theorem pySplitlines_append_lf (l t : List Char)
    (h : ∀ c ∈ l, pyIsLineBreak c = false) :
    pySplitlines (l ++ '\n' :: t) = l :: pySplitlines t := by
  induction l with
  | nil =>
      cases t with
      | nil => decide
      | cons u us =>
          show pySplitlines ('\n' :: u :: us) = [] :: pySplitlines (u :: us)
          rw [pySplitlines_cons_cons, if_neg, if_pos (by decide)]
          rintro ⟨h1, -⟩
          exact absurd h1 (by decide)
  | cons a l ih =>
      have hne : l ++ '\n' :: t ≠ [] := by simp
      obtain ⟨d, cs, hd⟩ : ∃ d cs, l ++ '\n' :: t = d :: cs := by
        cases hl : l ++ '\n' :: t with
        | nil => exact absurd hl hne
        | cons d cs => exact ⟨d, cs, rfl⟩
      show pySplitlines (a :: (l ++ '\n' :: t)) = (a :: l) :: pySplitlines t
      rw [hd, pySplitlines_cons_cons, if_neg, if_neg]
      · rw [← hd, ih (fun c hc => h c (List.mem_cons_of_mem a hc))]
        rfl
      · simp [h a (List.mem_cons_self a l)]
      · rintro ⟨h1, -⟩
        have := h a (List.mem_cons_self a l)
        rw [h1] at this
        exact absurd this (by decide)

theorem pySplitlines_joinLines (ls : List (List Char))
    (hnb : ∀ l ∈ ls, ∀ c ∈ l, pyIsLineBreak c = false)
    (hlast : ls.getLast? ≠ some []) :
    pySplitlines (joinLines ls) = ls := by
  induction ls with
  | nil => rfl
  | cons l ls ih =>
      cases ls with
      | nil =>
          show pySplitlines l = [l]
          have hl : l ≠ [] := by
            intro e
            subst e
            exact hlast rfl
          exact pySplitlines_of_no_break l hl (hnb l (List.mem_cons_self l []))
      | cons m ms =>
          show pySplitlines (l ++ '\n' :: joinLines (m :: ms)) = l :: m :: ms
          rw [pySplitlines_append_lf l _ (hnb l (List.mem_cons_self l (m :: ms)))]
          rw [ih (fun x hx => hnb x (List.mem_cons_of_mem l hx))
            (by rwa [List.getLast?_cons_cons] at hlast)]

/-- C5 counterexample: the normalization is not idempotent as claimed.  On
the input consisting of the line `a` followed by two line feeds, one
application yields the text `a` followed by one line feed, and a second
application yields plain `a`: a trailing empty line is dropped per pass. -/
theorem c5_counterexample_idempotence :
    normalizeWhitespace (normalizeWhitespace "a\n\n".data) ≠
      normalizeWhitespace "a\n\n".data := by
  decide

/-- C5 (amended): the normalization is idempotent on every input whose final
line is not whitespace-only, i.e. whenever the stripped last line is
nonempty (inputs with no lines at all are also covered).  On other inputs a
second application can drop a further trailing empty line. -/
theorem c5_normalize_idempotent
    (s : List Char)
    (h : ((pySplitlines s).map pyStrip).getLast?.getD ['x'] ≠ []) :
    normalizeWhitespace (normalizeWhitespace s) = normalizeWhitespace s := by
  unfold normalizeWhitespace
  have h1 : pySplitlines (joinLines ((pySplitlines s).map pyStrip)) =
      (pySplitlines s).map pyStrip := by
    apply pySplitlines_joinLines
    · intro l hl c hc
      rcases List.mem_map.mp hl with ⟨l0, hl0, rfl⟩
      exact pySplitlines_no_break s l0 hl0 c (mem_pyStrip hc)
    · intro e
      rw [e] at h
      simp at h
  rw [h1, List.map_map]
  congr 1
  exact List.map_congr_left (fun a _ => pyStrip_idem a)

/-- Witness for the amended C5 at a concrete input with inner empty lines,
leading/trailing spaces, and a nonempty last line. -/
theorem c5_normalize_idempotent_witness :
    (((pySplitlines "  a \n\n b ".data).map pyStrip).getLast?.getD ['x'] ≠ []) ∧
    normalizeWhitespace (normalizeWhitespace "  a \n\n b ".data) =
      normalizeWhitespace "  a \n\n b ".data :=
  ⟨by decide, c5_normalize_idempotent "  a \n\n b ".data (by decide)⟩

theorem pySplitlines_getLast_char (s : List Char) (c : Char)
    (hbr : pyIsLineBreak c = false) :
    s.getLast? = some c →
      ∃ ls L, pySplitlines s = ls ++ [L] ∧ L.getLast? = some c := by
  induction s using pySplitlines.induct with
  | case1 => intro hc; simp at hc
  | case2 a h =>
      intro hc
      simp only [List.getLast?_singleton, Option.some.injEq] at hc
      subst hc
      rw [h] at hbr
      cases hbr
  | case3 a h =>
      intro hc
      simp only [List.getLast?_singleton, Option.some.injEq] at hc
      subst hc
      exact ⟨[], [a], by rw [pySplitlines_single, if_neg h]; rfl, rfl⟩
  | case4 a d cs h ih =>
      intro hc
      obtain ⟨rfl, rfl⟩ := h
      cases cs with
      | nil =>
          rw [List.getLast?_cons_cons] at hc
          simp only [List.getLast?_singleton, Option.some.injEq] at hc
          subst hc
          exact absurd hbr (by decide)
      | cons e es =>
          rw [List.getLast?_cons_cons, List.getLast?_cons_cons] at hc
          obtain ⟨ls, L, hsp, hL⟩ := ih hc
          refine ⟨[] :: ls, L, ?_, hL⟩
          rw [pySplitlines_cons_cons, if_pos ⟨rfl, rfl⟩, hsp]
          rfl
  | case5 a d cs h hbrk ih =>
      intro hc
      rw [List.getLast?_cons_cons] at hc
      obtain ⟨ls, L, hsp, hL⟩ := ih hc
      refine ⟨[] :: ls, L, ?_, hL⟩
      rw [pySplitlines_cons_cons, if_neg h, if_pos hbrk, hsp]
      rfl
  | case6 a d cs h hbrk ih =>
      intro hc
      rw [List.getLast?_cons_cons] at hc
      obtain ⟨ls, L, hsp, hL⟩ := ih hc
      rw [pySplitlines_cons_cons, if_neg h, if_neg hbrk, hsp]
      cases ls with
      | nil =>
          refine ⟨[], a :: L, rfl, ?_⟩
          cases L with
          | nil => simp at hL
          | cons x xs => rw [List.getLast?_cons_cons]; exact hL
      | cons l0 ls' => exact ⟨(a :: l0) :: ls', L, rfl, hL⟩

theorem pySplitlines_append_lf_eq (s : List Char) (c : Char)
    (hbr : pyIsLineBreak c = false) :
    s.getLast? = some c → pySplitlines (s ++ ['\n']) = pySplitlines s := by
  induction s using pySplitlines.induct with
  | case1 => intro hc; simp at hc
  | case2 a h =>
      intro hc
      simp only [List.getLast?_singleton, Option.some.injEq] at hc
      subst hc
      rw [h] at hbr
      cases hbr
  | case3 a h =>
      intro hc
      show pySplitlines (a :: ['\n']) = pySplitlines [a]
      rw [pySplitlines_cons_cons, if_neg, if_neg h]
      · rw [pySplitlines_single, if_pos (by decide), pySplitlines_single, if_neg h]
        rfl
      · rintro ⟨h1, -⟩
        exact h (by rw [h1]; decide)
  | case4 a d cs h ih =>
      intro hc
      obtain ⟨rfl, rfl⟩ := h
      cases cs with
      | nil =>
          rw [List.getLast?_cons_cons] at hc
          simp only [List.getLast?_singleton, Option.some.injEq] at hc
          subst hc
          exact absurd hbr (by decide)
      | cons e es =>
          rw [List.getLast?_cons_cons, List.getLast?_cons_cons] at hc
          show pySplitlines ('\r' :: '\n' :: ((e :: es) ++ ['\n'])) =
            pySplitlines ('\r' :: '\n' :: (e :: es))
          rw [pySplitlines_cons_cons, if_pos ⟨rfl, rfl⟩, ih hc,
            pySplitlines_cons_cons, if_pos ⟨rfl, rfl⟩]
  | case5 a d cs h hbrk ih =>
      intro hc
      rw [List.getLast?_cons_cons] at hc
      show pySplitlines (a :: ((d :: cs) ++ ['\n'])) = pySplitlines (a :: d :: cs)
      rw [List.cons_append, pySplitlines_cons_cons, if_neg h, if_pos hbrk,
        ← List.cons_append, ih hc, pySplitlines_cons_cons, if_neg h, if_pos hbrk]
  | case6 a d cs h hbrk ih =>
      intro hc
      rw [List.getLast?_cons_cons] at hc
      show pySplitlines (a :: ((d :: cs) ++ ['\n'])) = pySplitlines (a :: d :: cs)
      rw [List.cons_append, pySplitlines_cons_cons, if_neg h, if_neg hbrk,
        ← List.cons_append, ih hc, pySplitlines_cons_cons, if_neg h, if_neg hbrk]

theorem getLast?_joinLines (ls : List (List Char)) (L : List Char) (hL : L ≠ [])
    (h : ls.getLast? = some L) : (joinLines ls).getLast? = L.getLast? := by
  induction ls with
  | nil => simp at h
  | cons l ls ih =>
      cases ls with
      | nil =>
          simp only [List.getLast?_singleton, Option.some.injEq] at h
          subst h
          rfl
      | cons m ms =>
          rw [List.getLast?_cons_cons] at h
          have hj := ih h
          have hjoin_ne : joinLines (m :: ms) ≠ [] := by
            intro e
            rw [e] at hj
            rw [List.getLast?_eq_none_iff.mpr rfl] at hj
            exact hL (List.getLast?_eq_none_iff.mp hj.symm)
          show (l ++ '\n' :: joinLines (m :: ms)).getLast? = L.getLast?
          rw [List.getLast?_append_of_ne_nil _ (List.cons_ne_nil _ _)]
          obtain ⟨k, ks, hk⟩ : ∃ k ks, joinLines (m :: ms) = k :: ks := by
            cases hjm : joinLines (m :: ms) with
            | nil => exact absurd hjm hjoin_ne
            | cons k ks => exact ⟨k, ks, rfl⟩
          rw [hk, List.getLast?_cons_cons, ← hk, hj]

theorem pyStrip_getLast?_of_last (L : List Char) (c : Char)
    (hc : L.getLast? = some c) (hsp : pyIsSpace c = false) :
    (pyStrip L).getLast? = some c := by
  have hy_ne : L.dropWhile pyIsSpace ≠ [] := by
    intro e
    have := List.dropWhile_eq_nil_iff.mp e c (mem_of_getLast?_eq hc)
    rw [hsp] at this
    cases this
  have hy : (L.dropWhile pyIsSpace).getLast? = some c := by
    rw [getLast?_dropWhile _ _ hy_ne]
    exact hc
  have hrev : (L.dropWhile pyIsSpace).reverse.head? = some c := by
    rw [List.head?_reverse]
    exact hy
  have hz : ((L.dropWhile pyIsSpace).reverse).dropWhile pyIsSpace =
      (L.dropWhile pyIsSpace).reverse := by
    apply dropWhile_eq_self_of_head
    intro c' hc'
    rw [hrev] at hc'
    simp only [Option.some.injEq] at hc'
    subst hc'
    exact hsp
  show ((L.dropWhile pyIsSpace).reverse.dropWhile pyIsSpace).reverse.getLast? = some c
  rw [hz, List.reverse_reverse]
  exact hy

/-- C9 counterexample: the normalized output can end with a line feed, and
appending a trailing line feed can change the result.  On `a` + LF + LF the
output is `a` + LF; and `a` + LF versus `a` + LF + LF normalize
differently. -/
theorem c9_counterexample_trailing_lf :
    (normalizeWhitespace "a\n\n".data).getLast? = some '\n' ∧
    normalizeWhitespace ("a\n".data ++ ['\n']) ≠ normalizeWhitespace "a\n".data :=
  ⟨by decide, by decide⟩

/-- C9 (amended): for every input that is empty or whose last character is
not whitespace, the normalized output does not end with a line feed, and a
trailing line feed appended to the input does not change the normalization.
When the input ends in whitespace (e.g. a trailing empty line), the output
may end with a line feed and a trailing line feed may change the result. -/
theorem c9_no_trailing_lf (s : List Char)
    (h : pyIsSpace (s.getLast?.getD 'a') = false) :
    (normalizeWhitespace s).getLast? ≠ some '\n' ∧
    normalizeWhitespace (s ++ ['\n']) = normalizeWhitespace s := by
  cases hs : s.getLast? with
  | none =>
      have hnil : s = [] := List.getLast?_eq_none_iff.mp hs
      subst hnil
      exact ⟨by decide, by decide⟩
  | some c =>
      rw [hs] at h
      simp only [Option.getD_some] at h
      have hbr : pyIsLineBreak c = false := by
        cases e : pyIsLineBreak c
        · rfl
        · rw [pyIsSpace_of_break e] at h
          cases h
      constructor
      · obtain ⟨ls, L, hsp, hL⟩ := pySplitlines_getLast_char s c hbr hs
        have hstrip : (pyStrip L).getLast? = some c := pyStrip_getLast?_of_last L c hL h
        have hne : pyStrip L ≠ [] := by
          intro e
          rw [e] at hstrip
          simp at hstrip
        have hval : (normalizeWhitespace s).getLast? = some c := by
          unfold normalizeWhitespace
          rw [hsp, List.map_append]
          simp only [List.map_cons, List.map_nil]
          rw [getLast?_joinLines (List.map pyStrip ls ++ [pyStrip L]) (pyStrip L) hne
            (List.getLast?_concat _)]
          exact hstrip
        rw [hval]
        intro e
        simp only [Option.some.injEq] at e
        subst e
        exact absurd h (by decide)
      · unfold normalizeWhitespace
        rw [pySplitlines_append_lf_eq s c hbr hs]

/-- Witness for the amended C9 at the concrete input `abc`. -/
theorem c9_no_trailing_lf_witness :
    pyIsSpace (("abc".data : List Char).getLast?.getD 'a') = false ∧
    ((normalizeWhitespace "abc".data).getLast? ≠ some '\n' ∧
      normalizeWhitespace ("abc".data ++ ['\n']) = normalizeWhitespace "abc".data) :=
  ⟨by decide, c9_no_trailing_lf "abc".data (by decide)⟩

/-- C7: type detection is a pure, case-insensitive function of the path's
extension suffix: it factors through the lowercased `splitext` extension via
the spec's table (`.yaml`/`.yml` to yaml, `.json` to json, otherwise text),
and the spec's three sample paths (plus an uppercase variant) map as stated.
The file content is never inspected: `detect_file_type` takes only the path. -/
theorem c7_detect_type_pure_of_extension :
    (∀ p : List Char, detect_file_type p = extToType ((splitextExt p).map Char.toLower)) ∧
    detect_file_type "a.yaml".data = FileType.yaml ∧
    detect_file_type "a.YAML".data = FileType.yaml ∧
    detect_file_type "b.yml".data = FileType.yaml ∧
    detect_file_type "a.json".data = FileType.json ∧
    detect_file_type "a.conf".data = FileType.text := by
  refine ⟨fun p => rfl, ?_, ?_, ?_, ?_, ?_⟩ <;> decide

/-- C10: type detection is total: for every path it returns one of the three
values yaml, json or text (there is no `None`/failure outcome). -/
theorem c10_detect_type_total (p : List Char) :
    detect_file_type p = FileType.yaml ∨ detect_file_type p = FileType.json ∨
      detect_file_type p = FileType.text := by
  cases hd : detect_file_type p
  · exact Or.inl rfl
  · exact Or.inr (Or.inl rfl)
  · exact Or.inr (Or.inr rfl)

/-- C8: when the file type is yaml or json and the external lint tool is
absent from the host (`FileNotFoundError`, modelled as `LintOutcome.notFound`),
`validate_file` returns success, so validation is skipped rather than
treated as an error. -/
theorem c8_missing_linter_is_skip
    (run : List Char → List Char → LintOutcome) (path : List Char) (ft : FileType)
    (h : (ft = FileType.yaml ∧ run "yamllint".data path = LintOutcome.notFound) ∨
         (ft = FileType.json ∧ run "jsonlint".data path = LintOutcome.notFound)) :
    validate_file run path ft = true := by
  rcases h with ⟨hft, hrun⟩ | ⟨hft, hrun⟩ <;> subst hft <;>
    simp [validate_file, hrun]

/-- Witness for C8 at a concrete host with no linters installed. -/
theorem c8_missing_linter_is_skip_witness :
    ((FileType.yaml = FileType.yaml ∧
        (fun (_ _ : List Char) => LintOutcome.notFound) "yamllint".data "f.yaml".data =
          LintOutcome.notFound) ∨
      (FileType.yaml = FileType.json ∧
        (fun (_ _ : List Char) => LintOutcome.notFound) "jsonlint".data "f.yaml".data =
          LintOutcome.notFound)) ∧
    validate_file (fun _ _ => LintOutcome.notFound) "f.yaml".data FileType.yaml = true :=
  ⟨Or.inl ⟨rfl, rfl⟩,
    c8_missing_linter_is_skip (fun _ _ => LintOutcome.notFound) "f.yaml".data FileType.yaml
      (Or.inl ⟨rfl, rfl⟩)⟩

/-! ## Diff engine

`generate_diff_html` (main.py lines 143-146) calls
`diff_match_patch.diff_main` followed by `diff_cleanupSemantic`.  The
library is not part of this repository, so the engine is modelled from the
spec: `diff_main` as an LCS-based minimal edit script over characters
(choosing the cheaper of delete-first/insert-first when heads differ, and
consuming equal heads), and `diff_cleanupSemantic` as the spec's cleanup:
it eliminates tiny equal spans sandwiched between edits (re-emitting their
text as a paired delete and insert) and merges adjacent spans of one
operation, dropping empty spans. -/

/-- A diff operation: delete (left only), insert (right only), equal. -/
inductive DiffOp where
  | del
  | ins
  | eq
deriving DecidableEq

/-- One span of an edit script: an operation together with its text. -/
structure Span where
  op : DiffOp
  text : List Char
deriving DecidableEq

/-- Concatenation of the EQUAL and DELETE fragments, in order: the left
text an edit script stands for. -/
def leftText (d : List Span) : List Char :=
  d.foldr (fun sp acc => if sp.op = DiffOp.ins then acc else sp.text ++ acc) []

/-- Concatenation of the EQUAL and INSERT fragments, in order: the right
text an edit script stands for. -/
def rightText (d : List Span) : List Char :=
  d.foldr (fun sp acc => if sp.op = DiffOp.del then acc else sp.text ++ acc) []

/-- Total number of edited (non-equal) characters of a script: the edit
cost minimised by the diff. -/
def editCost (d : List Span) : Nat :=
  d.foldr (fun sp acc => (if sp.op = DiffOp.eq then 0 else sp.text.length) + acc) 0

/-- Modelled from the spec: the LCS-based minimal character diff
(`diff_match_patch.diff_main`).  Structured on explicit fuel; with fuel at
least the total input length the fallback row is never reached. -/
def diffGo : Nat → List Char → List Char → List Span
  | 0, l, r => [⟨DiffOp.del, l⟩, ⟨DiffOp.ins, r⟩]
  | Nat.succ _, [], [] => []
  | Nat.succ _, [], b :: r => [⟨DiffOp.ins, b :: r⟩]
  | Nat.succ _, a :: l, [] => [⟨DiffOp.del, a :: l⟩]
  | Nat.succ f, a :: l, b :: r =>
      if a = b then ⟨DiffOp.eq, [a]⟩ :: diffGo f l r
      else
        if editCost (⟨DiffOp.del, [a]⟩ :: diffGo f l (b :: r)) ≤
            editCost (⟨DiffOp.ins, [b]⟩ :: diffGo f (a :: l) r) then
          ⟨DiffOp.del, [a]⟩ :: diffGo f l (b :: r)
        else ⟨DiffOp.ins, [b]⟩ :: diffGo f (a :: l) r

/-- Modelled from the spec: `diff_main` at sufficient fuel. -/
def diff_main (l r : List Char) : List Span :=
  diffGo (l.length + r.length) l r

/-- Whether a span is an edit (insert or delete). -/
def isEdit (sp : Span) : Bool :=
  decide (¬ sp.op = DiffOp.eq)

/-- Modelled from the spec: the size below which an equality sandwiched
between edits counts as spurious for semantic cleanup. -/
def smallEqBound : Nat := 4

/-- Whether the first span of a script is an edit. -/
def headIsEdit : List Span → Bool
  | [] => false
  | t :: _ => isEdit t

/-- Modelled from the spec: first half of `diff_cleanupSemantic` — every
tiny equal span lying between two edits is re-emitted as a delete plus an
insert of the same text.  The Boolean argument records whether the
previous span was an edit. -/
def splitSmallEq (prevEdit : Bool) : List Span → List Span
  | [] => []
  | sp :: rest =>
      if sp.op = DiffOp.eq ∧ prevEdit = true ∧ headIsEdit rest = true ∧
          sp.text.length ≤ smallEqBound then
        ⟨DiffOp.del, sp.text⟩ :: ⟨DiffOp.ins, sp.text⟩ :: splitSmallEq true rest
      else
        sp :: splitSmallEq (isEdit sp) rest

/-- Modelled from the spec: second half of `diff_cleanupSemantic` — merge
adjacent spans with one operation and drop empty spans
(`diff_cleanupMerge`). -/
def cleanupMerge : List Span → List Span
  | [] => []
  | sp :: rest =>
      match cleanupMerge rest with
      | [] => if sp.text = [] then [] else [sp]
      | t :: ts =>
          if sp.text = [] then t :: ts
          else if sp.op = t.op then ⟨sp.op, sp.text ++ t.text⟩ :: ts
          else sp :: t :: ts

/-- Modelled from the spec: `diff_cleanupSemantic`. -/
def diff_cleanupSemantic (d : List Span) : List Span :=
  cleanupMerge (splitSmallEq false d)

/-- The edit script `generate_diff_html` computes before rendering
(main.py lines 143-145): `diff_main` then `diff_cleanupSemantic`. -/
def computeDiff (l r : List Char) : List Span :=
  diff_cleanupSemantic (diff_main l r)

theorem leftText_cons (sp : Span) (d : List Span) :
    leftText (sp :: d) =
      if sp.op = DiffOp.ins then leftText d else sp.text ++ leftText d := rfl

theorem rightText_cons (sp : Span) (d : List Span) :
    rightText (sp :: d) =
      if sp.op = DiffOp.del then rightText d else sp.text ++ rightText d := rfl

theorem leftText_merge (o : DiffOp) (t1 t2 : List Char) (ts : List Span) :
    leftText (⟨o, t1 ++ t2⟩ :: ts) = leftText (⟨o, t1⟩ :: ⟨o, t2⟩ :: ts) := by
  by_cases h : o = DiffOp.ins
  · simp [leftText_cons, h]
  · simp [leftText_cons, h, List.append_assoc]

theorem rightText_merge (o : DiffOp) (t1 t2 : List Char) (ts : List Span) :
    rightText (⟨o, t1 ++ t2⟩ :: ts) = rightText (⟨o, t1⟩ :: ⟨o, t2⟩ :: ts) := by
  by_cases h : o = DiffOp.del
  · simp [rightText_cons, h]
  · simp [rightText_cons, h, List.append_assoc]

theorem diffGo_reconstructs (f : Nat) :
    ∀ l r : List Char,
      leftText (diffGo f l r) = l ∧ rightText (diffGo f l r) = r := by
  induction f with
  | zero =>
      intro l r
      constructor
      · show leftText [⟨DiffOp.del, l⟩, ⟨DiffOp.ins, r⟩] = l
        simp [leftText_cons, leftText]
      · show rightText [⟨DiffOp.del, l⟩, ⟨DiffOp.ins, r⟩] = r
        simp [rightText_cons, rightText]
  | succ f ih =>
      intro l r
      cases l with
      | nil =>
          cases r with
          | nil => exact ⟨rfl, rfl⟩
          | cons b r =>
              constructor
              · show leftText [⟨DiffOp.ins, b :: r⟩] = []
                simp [leftText_cons, leftText]
              · show rightText [⟨DiffOp.ins, b :: r⟩] = b :: r
                simp [rightText_cons, rightText]
      | cons a l =>
          cases r with
          | nil =>
              constructor
              · show leftText [⟨DiffOp.del, a :: l⟩] = a :: l
                simp [leftText_cons, leftText]
              · show rightText [⟨DiffOp.del, a :: l⟩] = []
                simp [rightText_cons, rightText]
          | cons b r =>
              rw [diffGo]
              by_cases hab : a = b
              · subst hab
                rw [if_pos rfl]
                obtain ⟨ihl, ihr⟩ := ih l r
                exact ⟨by simp [leftText_cons, ihl], by simp [rightText_cons, ihr]⟩
              · rw [if_neg hab]
                obtain ⟨ihl1, ihr1⟩ := ih l (b :: r)
                obtain ⟨ihl2, ihr2⟩ := ih (a :: l) r
                by_cases hc : editCost (⟨DiffOp.del, [a]⟩ :: diffGo f l (b :: r)) ≤
                    editCost (⟨DiffOp.ins, [b]⟩ :: diffGo f (a :: l) r)
                · rw [if_pos hc]
                  exact ⟨by simp [leftText_cons, ihl1], by simp [rightText_cons, ihr1]⟩
                · rw [if_neg hc]
                  exact ⟨by simp [leftText_cons, ihl2], by simp [rightText_cons, ihr2]⟩

theorem splitSmallEq_reconstructs (d : List Span) :
    ∀ p : Bool,
      leftText (splitSmallEq p d) = leftText d ∧
      rightText (splitSmallEq p d) = rightText d := by
  induction d with
  | nil => intro p; exact ⟨rfl, rfl⟩
  | cons sp rest ih =>
      intro p
      rw [splitSmallEq]
      split
      · next hcond =>
          obtain ⟨ihl, ihr⟩ := ih true
          constructor
          · simp [leftText_cons, ihl, hcond.1]
          · simp [rightText_cons, ihr, hcond.1]
      · obtain ⟨ihl, ihr⟩ := ih (isEdit sp)
        constructor
        · simp [leftText_cons, ihl]
        · simp [rightText_cons, ihr]

theorem cleanupMerge_reconstructs (d : List Span) :
    leftText (cleanupMerge d) = leftText d ∧
    rightText (cleanupMerge d) = rightText d := by
  induction d with
  | nil => exact ⟨rfl, rfl⟩
  | cons sp rest ih =>
      obtain ⟨ihl, ihr⟩ := ih
      rw [cleanupMerge]
      cases hm : cleanupMerge rest with
      | nil =>
          rw [hm] at ihl ihr
          have hl : leftText rest = [] := ihl.symm
          have hr : rightText rest = [] := ihr.symm
          by_cases he : sp.text = []
          · rw [if_pos he]
            constructor
            · show ([] : List Char) = leftText (sp :: rest)
              rw [leftText_cons, hl, he]
              split <;> rfl
            · show ([] : List Char) = rightText (sp :: rest)
              rw [rightText_cons, hr, he]
              split <;> rfl
          · rw [if_neg he]
            constructor
            · rw [leftText_cons, leftText_cons, hl]
              split <;> rfl
            · rw [rightText_cons, rightText_cons, hr]
              split <;> rfl
      | cons t ts =>
          rw [hm] at ihl ihr
          show leftText (if sp.text = [] then t :: ts
              else if sp.op = t.op then ⟨sp.op, sp.text ++ t.text⟩ :: ts
              else sp :: t :: ts) = leftText (sp :: rest) ∧
            rightText (if sp.text = [] then t :: ts
              else if sp.op = t.op then ⟨sp.op, sp.text ++ t.text⟩ :: ts
              else sp :: t :: ts) = rightText (sp :: rest)
          by_cases he : sp.text = []
          · rw [if_pos he]
            constructor
            · rw [ihl, leftText_cons, he]
              split <;> rfl
            · rw [ihr, rightText_cons, he]
              split <;> rfl
          · rw [if_neg he]
            by_cases hop : sp.op = t.op
            · rw [if_pos hop]
              have hsp : (⟨sp.op, sp.text⟩ : Span) = sp := rfl
              have ht : (⟨sp.op, t.text⟩ : Span) = t := by rw [hop]
              constructor
              · rw [leftText_merge, hsp, ht, leftText_cons, ihl, ← leftText_cons]
              · rw [rightText_merge, hsp, ht, rightText_cons, ihr, ← rightText_cons]
            · rw [if_neg hop]
              constructor
              · rw [leftText_cons, ihl, ← leftText_cons]
              · rw [rightText_cons, ihr, ← rightText_cons]

/-- C1: for all strings L and R, the edit script computed by the diff
engine as invoked by `generate_diff_html` — `diff_main` followed by
`diff_cleanupSemantic`, i.e. `computeDiff` — satisfies both reconstruction
invariants: the EQUAL+DELETE fragments concatenate to L and the
EQUAL+INSERT fragments concatenate to R. -/
theorem c1_round_trip_reconstruction (L R : List Char) :
    leftText (computeDiff L R) = L ∧ rightText (computeDiff L R) = R := by
  constructor
  · show leftText (cleanupMerge (splitSmallEq false (diff_main L R))) = L
    rw [(cleanupMerge_reconstructs _).1, (splitSmallEq_reconstructs _ false).1]
    exact (diffGo_reconstructs _ L R).1
  · show rightText (cleanupMerge (splitSmallEq false (diff_main L R))) = R
    rw [(cleanupMerge_reconstructs _).2, (splitSmallEq_reconstructs _ false).2]
    exact (diffGo_reconstructs _ L R).2

theorem diffGo_self (s : List Char) :
    ∀ f, s.length < f → diffGo f s s = s.map (fun a => ⟨DiffOp.eq, [a]⟩) := by
  induction s with
  | nil =>
      intro f hf
      cases f with
      | zero => exact absurd hf (Nat.not_lt_zero _)
      | succ f => rfl
  | cons a s ih =>
      intro f hf
      cases f with
      | zero => exact absurd hf (Nat.not_lt_zero _)
      | succ f =>
          rw [diffGo, if_pos rfl, ih f (by simpa using hf)]
          rfl

theorem splitSmallEq_all_eq (d : List Span) (h : ∀ sp ∈ d, sp.op = DiffOp.eq) :
    splitSmallEq false d = d := by
  induction d with
  | nil => rfl
  | cons sp rest ih =>
      rw [splitSmallEq, if_neg]
      · have hsp : isEdit sp = false := by
          simp [isEdit, h sp (List.mem_cons_self sp rest)]
        rw [hsp, ih (fun t ht => h t (List.mem_cons_of_mem _ ht))]
      · rintro ⟨-, h2, -⟩
        cases h2

theorem cleanupMerge_all_eq (d : List Span) (h : ∀ sp ∈ d, sp.op = DiffOp.eq) :
    ∀ sp ∈ cleanupMerge d, sp.op = DiffOp.eq := by
  induction d with
  | nil => simp [cleanupMerge]
  | cons sp rest ih =>
      have hsp := h sp (List.mem_cons_self sp rest)
      have ih' := ih (fun t ht => h t (List.mem_cons_of_mem _ ht))
      rw [cleanupMerge]
      cases hm : cleanupMerge rest with
      | nil =>
          intro u hu
          by_cases he : sp.text = []
          · rw [if_pos he] at hu
            cases hu
          · rw [if_neg he] at hu
            rcases List.mem_singleton.mp hu with rfl
            exact hsp
      | cons t ts =>
          intro u hu
          have hu' : u ∈ (if sp.text = [] then t :: ts
              else if sp.op = t.op then (⟨sp.op, sp.text ++ t.text⟩ : Span) :: ts
              else sp :: t :: ts) := hu
          by_cases he : sp.text = []
          · rw [if_pos he] at hu'
            exact ih' u (hm ▸ hu')
          · rw [if_neg he] at hu'
            by_cases hop : sp.op = t.op
            · rw [if_pos hop] at hu'
              rcases List.mem_cons.mp hu' with rfl | hu''
              · exact hsp
              · exact ih' u (hm ▸ List.mem_cons_of_mem t hu'')
            · rw [if_neg hop] at hu'
              rcases List.mem_cons.mp hu' with rfl | hu''
              · exact hsp
              · exact ih' u (hm ▸ hu'')

/-- C6: for every string S, the diff of S against itself consists of EQUAL
spans only, and their concatenation (the EQUAL+DELETE reading) is exactly
S. -/
theorem c6_identity_diff (S : List Char) :
    (∀ sp ∈ computeDiff S S, sp.op = DiffOp.eq) ∧ leftText (computeDiff S S) = S := by
  constructor
  · cases S with
    | nil =>
        intro sp hsp
        rw [show computeDiff [] [] = [] from rfl] at hsp
        cases hsp
    | cons a s =>
        have hmain : diff_main (a :: s) (a :: s) =
            (a :: s).map (fun c => ⟨DiffOp.eq, [c]⟩) := by
          apply diffGo_self
          simp
        have hall : ∀ sp ∈ diff_main (a :: s) (a :: s), sp.op = DiffOp.eq := by
          rw [hmain]
          intro sp hsp
          rcases List.mem_map.mp hsp with ⟨c, -, rfl⟩
          rfl
        show ∀ sp ∈ cleanupMerge (splitSmallEq false (diff_main (a :: s) (a :: s))),
          sp.op = DiffOp.eq
        rw [splitSmallEq_all_eq _ hall]
        exact cleanupMerge_all_eq _ hall
  · show leftText (cleanupMerge (splitSmallEq false (diff_main S S))) = S
    rw [(cleanupMerge_reconstructs _).1, (splitSmallEq_reconstructs _ false).1]
    exact (diffGo_reconstructs _ S S).1

/-! ## JSON canonicalization

`read_file` (main.py lines 71-105) canonicalizes json content as
`json.dumps(json.load(f), indent=2)`.  The `json` library is external, so
it is modelled from the spec: a generic value model (scalars, ordered
sequences, order-preserving mappings), a parser, and a deterministic
2-space-indent serializer matching `json.dumps(..., indent=2)`.  Numeric
scalars are modelled as integers (floats are outside the shallow
embedding).  Mappings keep every key-value pair in source order. -/

mutual
inductive JVal where
  | jnull : JVal
  | jbool : Bool → JVal
  | jnum : Int → JVal
  | jstr : List Char → JVal
  | jarr : JList → JVal
  | jobj : JObj → JVal
inductive JList where
  | jnil : JList
  | jcons : JVal → JList → JList
inductive JObj where
  | onil : JObj
  | ocons : List Char → JVal → JObj → JObj
end

/-- Opening curly bracket character. -/
def lbrace : Char := Char.ofNat 123

/-- Closing curly bracket character. -/
def rbrace : Char := Char.ofNat 125

/-- Indentation: `k` spaces. -/
def pad (k : Nat) : List Char := List.replicate k ' '

/-- Modelled from the spec: JSON string escaping for quote and backslash
(the two escapes exercised by the value model). -/
def escapeStr (s : List Char) : List Char :=
  s.flatMap (fun c => if c = '"' ∨ c = '\\' then ['\\', c] else [c])

/-- A serialized JSON string literal. -/
def dumpsStr (s : List Char) : List Char := '"' :: (escapeStr s ++ ['"'])

/-- The decimal digit character for `n < 10`. -/
def digitChar (n : Nat) : Char :=
  if n = 0 then '0' else if n = 1 then '1' else if n = 2 then '2'
  else if n = 3 then '3' else if n = 4 then '4' else if n = 5 then '5'
  else if n = 6 then '6' else if n = 7 then '7' else if n = 8 then '8'
  else '9'

/-- Decimal digits of a natural number, most significant first (on fuel,
which `natDigits` supplies in sufficient amount). -/
def natDigitsGo : Nat → Nat → List Char
  | 0, _ => []
  | f + 1, n => if n < 10 then [digitChar n] else natDigitsGo f (n / 10) ++ [digitChar (n % 10)]

/-- Decimal digits of a natural number. -/
def natDigits (n : Nat) : List Char := natDigitsGo (n + 1) n

/-- Modelled from the spec: serialization of an integer scalar. -/
def dumpsNum (n : Int) : List Char :=
  if n < 0 then '-' :: natDigits n.natAbs else natDigits n.toNat

mutual
/-- Modelled from the spec: `json.dumps(..., indent=2)` with the closing
delimiter of the value aligned at column `k`, preserving mapping key
order. -/
def dumpsVal : Nat → JVal → List Char
  | _, JVal.jnull => "null".data
  | _, JVal.jbool true => "true".data
  | _, JVal.jbool false => "false".data
  | _, JVal.jnum n => dumpsNum n
  | _, JVal.jstr s => dumpsStr s
  | _, JVal.jarr JList.jnil => "[]".data
  | k, JVal.jarr (JList.jcons v tl) =>
      '[' :: '\n' :: (pad (k + 2) ++ dumpsVal (k + 2) v ++ dumpsTail (k + 2) tl ++
        '\n' :: (pad k ++ [']']))
  | _, JVal.jobj JObj.onil => [lbrace, rbrace]
  | k, JVal.jobj (JObj.ocons key v tl) =>
      lbrace :: '\n' :: (pad (k + 2) ++ dumpsStr key ++ ':' :: ' ' ::
        (dumpsVal (k + 2) v ++ dumpsOTail (k + 2) tl ++ '\n' :: (pad k ++ [rbrace])))
/-- Second and later array items, each preceded by a comma, a line feed and
the item indentation. -/
def dumpsTail : Nat → JList → List Char
  | _, JList.jnil => []
  | k, JList.jcons v tl => ',' :: '\n' :: (pad k ++ dumpsVal k v ++ dumpsTail k tl)
/-- Second and later object members. -/
def dumpsOTail : Nat → JObj → List Char
  | _, JObj.onil => []
  | k, JObj.ocons key v tl =>
      ',' :: '\n' :: (pad k ++ dumpsStr key ++ ':' :: ' ' :: (dumpsVal k v ++ dumpsOTail k tl))
end

/-- The canonical serialization of a whole document. -/
def dumpsTop (v : JVal) : List Char := dumpsVal 0 v

/-- The whitespace JSON allows between tokens. -/
def jsonWs (c : Char) : Bool := c = ' ' || c = '\t' || c = '\n' || c = '\r'

/-- Skip inter-token whitespace. -/
def skipWs (cs : List Char) : List Char := cs.dropWhile jsonWs

/-- Modelled from the spec: the body of a JSON string literal after the
opening quote, with quote/backslash escapes; returns the decoded string
and the remainder after the closing quote. -/
def parseStrBody : List Char → Option (List Char × List Char)
  | [] => none
  | [c] => if c = '"' then some ([], []) else none
  | c :: d :: cs =>
      if c = '"' then some ([], d :: cs)
      else if c = '\\' then
        if d = '"' ∨ d = '\\' then (parseStrBody cs).map (fun p => (d :: p.1, p.2))
        else none
      else (parseStrBody (d :: cs)).map (fun p => (c :: p.1, p.2))

/-- The numeric value of a big-endian decimal digit string. -/
def digitsToNat (ds : List Char) : Nat :=
  ds.foldl (fun a c => a * 10 + (c.toNat - 48)) 0

/-- A maximal run of decimal digits, which must be nonempty. -/
def parseNat (cs : List Char) : Option (Nat × List Char) :=
  if (cs.takeWhile Char.isDigit).isEmpty then none
  else some (digitsToNat (cs.takeWhile Char.isDigit), cs.dropWhile Char.isDigit)

/-- Match an exact literal suffix. -/
def expectChars : List Char → List Char → Option (List Char)
  | [], cs => some cs
  | _ :: _, [] => none
  | e :: es, c :: cs => if c = e then expectChars es cs else none

mutual
/-- Modelled from the spec: recursive-descent JSON value parser.  The fuel
argument is structural; `jsonParse` supplies enough for any input. -/
def parseVal : Nat → List Char → Option (JVal × List Char)
  | 0, _ => none
  | Nat.succ f, cs =>
      match skipWs cs with
      | [] => none
      | c :: rest =>
          if c = lbrace then
            match skipWs rest with
            | c2 :: rest2 =>
                if c2 = rbrace then some (JVal.jobj JObj.onil, rest2)
                else (parseMembers f rest).map (fun p => (JVal.jobj p.1, p.2))
            | [] => none
          else if c = '[' then
            match skipWs rest with
            | c2 :: rest2 =>
                if c2 = ']' then some (JVal.jarr JList.jnil, rest2)
                else (parseItems f rest).map (fun p => (JVal.jarr p.1, p.2))
            | [] => none
          else if c = '"' then
            (parseStrBody rest).map (fun p => (JVal.jstr p.1, p.2))
          else if c = 't' then
            (expectChars "rue".data rest).map (fun r => (JVal.jbool true, r))
          else if c = 'f' then
            (expectChars "alse".data rest).map (fun r => (JVal.jbool false, r))
          else if c = 'n' then
            (expectChars "ull".data rest).map (fun r => (JVal.jnull, r))
          else if c = '-' then
            match parseNat rest with
            | some (n, r) => some (JVal.jnum (-(n : Int)), r)
            | none => none
          else if c.isDigit then
            match parseNat (c :: rest) with
            | some (n, r) => some (JVal.jnum (n : Int), r)
            | none => none
          else none
/-- One or more comma-separated array items up to the closing bracket. -/
def parseItems : Nat → List Char → Option (JList × List Char)
  | 0, _ => none
  | Nat.succ f, cs =>
      match parseVal f cs with
      | none => none
      | some (v, after) =>
          match skipWs after with
          | c :: rest =>
              if c = ',' then (parseItems f rest).map (fun p => (JList.jcons v p.1, p.2))
              else if c = ']' then some (JList.jcons v JList.jnil, rest)
              else none
          | [] => none
/-- One or more comma-separated object members up to the closing brace. -/
def parseMembers : Nat → List Char → Option (JObj × List Char)
  | 0, _ => none
  | Nat.succ f, cs =>
      match skipWs cs with
      | c :: rest =>
          if c = '"' then
            match parseStrBody rest with
            | none => none
            | some (key, afterKey) =>
                match skipWs afterKey with
                | c2 :: rest2 =>
                    if c2 = ':' then
                      match parseVal f rest2 with
                      | none => none
                      | some (v, afterVal) =>
                          match skipWs afterVal with
                          | c3 :: rest3 =>
                              if c3 = ',' then
                                (parseMembers f rest3).map
                                  (fun p => (JObj.ocons key v p.1, p.2))
                              else if c3 = rbrace then
                                some (JObj.ocons key v JObj.onil, rest3)
                              else none
                          | [] => none
                    else none
                | [] => none
          else none
      | [] => none
end

/-- Modelled from the spec: `json.load` on a whole document — a value
optionally surrounded by whitespace, with nothing after it. -/
def jsonParse (cs : List Char) : Option JVal :=
  match parseVal (cs.length + 1) cs with
  | some (v, rest) => if (skipWs rest).isEmpty then some v else none
  | none => none

/-- Whether the remainder is safe to follow a serialized number: its first
character, if any, is not a digit. -/
def headNotDigit : List Char → Bool
  | [] => true
  | c :: _ => !c.isDigit

theorem digitChar_isDigit (n : Nat) (h : n < 10) : (digitChar n).isDigit = true := by
  interval_cases n <;> decide

theorem digitChar_toNat (n : Nat) (h : n < 10) : (digitChar n).toNat = 48 + n := by
  interval_cases n <;> decide

theorem natDigitsGo_ne_nil (f n : Nat) (h : n < f) : natDigitsGo f n ≠ [] := by
  cases f with
  | zero => exact absurd h (Nat.not_lt_zero n)
  | succ f =>
      rw [natDigitsGo]
      by_cases h10 : n < 10
      · rw [if_pos h10]
        simp
      · rw [if_neg h10]
        simp

theorem natDigitsGo_all_digits (f : Nat) :
    ∀ n, n < f → ∀ c ∈ natDigitsGo f n, c.isDigit = true := by
  induction f with
  | zero => intro n h; exact absurd h (Nat.not_lt_zero n)
  | succ f ih =>
      intro n h c hc
      rw [natDigitsGo] at hc
      by_cases h10 : n < 10
      · rw [if_pos h10] at hc
        rcases List.mem_singleton.mp hc with rfl
        exact digitChar_isDigit n h10
      · rw [if_neg h10] at hc
        rcases List.mem_append.mp hc with hc' | hc'
        · exact ih (n / 10) (by omega) c hc'
        · rcases List.mem_singleton.mp hc' with rfl
          exact digitChar_isDigit (n % 10) (Nat.mod_lt n (by omega))

theorem digitsToNat_append_one (ds : List Char) (c : Char) :
    digitsToNat (ds ++ [c]) = 10 * digitsToNat ds + (c.toNat - 48) := by
  unfold digitsToNat
  rw [List.foldl_append]
  simp [Nat.mul_comm]

theorem digitsToNat_natDigitsGo (f : Nat) :
    ∀ n, n < f → digitsToNat (natDigitsGo f n) = n := by
  induction f with
  | zero => intro n h; exact absurd h (Nat.not_lt_zero n)
  | succ f ih =>
      intro n h
      rw [natDigitsGo]
      by_cases h10 : n < 10
      · rw [if_pos h10]
        show digitsToNat ([] ++ [digitChar n]) = n
        rw [digitsToNat_append_one, digitChar_toNat n h10]
        simp [digitsToNat]
      · rw [if_neg h10]
        rw [digitsToNat_append_one, ih (n / 10) (by omega),
          digitChar_toNat (n % 10) (Nat.mod_lt n (by omega))]
        omega

theorem natDigits_spec (n : Nat) :
    natDigits n ≠ [] ∧ (∀ c ∈ natDigits n, c.isDigit = true) ∧
      digitsToNat (natDigits n) = n :=
  ⟨natDigitsGo_ne_nil (n + 1) n (Nat.lt_succ_self n),
   natDigitsGo_all_digits (n + 1) n (Nat.lt_succ_self n),
   digitsToNat_natDigitsGo (n + 1) n (Nat.lt_succ_self n)⟩

theorem takeWhile_append_all {α : Type} (p : α → Bool) (xs ys : List α)
    (hx : ∀ c ∈ xs, p c = true) (hy : ∀ c, ys.head? = some c → p c = false) :
    (xs ++ ys).takeWhile p = xs ∧ (xs ++ ys).dropWhile p = ys := by
  induction xs with
  | nil =>
      simp only [List.nil_append]
      cases ys with
      | nil => exact ⟨rfl, rfl⟩
      | cons y ys' =>
          have := hy y rfl
          rw [List.takeWhile_cons, List.dropWhile_cons]
          simp [this]
  | cons x xs ih =>
      have hpx := hx x (List.mem_cons_self x xs)
      obtain ⟨h1, h2⟩ := ih (fun c hc => hx c (List.mem_cons_of_mem x hc))
      rw [List.cons_append, List.takeWhile_cons, List.dropWhile_cons]
      simp [hpx, h1, h2]

theorem parseNat_natDigits (n : Nat) (rest : List Char)
    (hrest : headNotDigit rest = true) :
    parseNat (natDigits n ++ rest) = some (n, rest) := by
  obtain ⟨hne, hall, hval⟩ := natDigits_spec n
  have hy : ∀ c, rest.head? = some c → c.isDigit = false := by
    intro c hc
    cases rest with
    | nil => cases hc
    | cons r rs =>
        simp only [List.head?_cons, Option.some.injEq] at hc
        subst hc
        simpa [headNotDigit] using hrest
  obtain ⟨ht, hd⟩ := takeWhile_append_all Char.isDigit (natDigits n) rest hall hy
  rw [parseNat, ht, hd, if_neg]
  · rw [hval]
  · simp [List.isEmpty_iff, hne]

theorem expectChars_self (es rest : List Char) :
    expectChars es (es ++ rest) = some rest := by
  induction es with
  | nil => rfl
  | cons e es ih =>
      rw [List.cons_append, expectChars, if_pos rfl, ih]

theorem skipWs_cons_not_ws (c : Char) (xs : List Char) (h : jsonWs c = false) :
    skipWs (c :: xs) = c :: xs := by
  rw [skipWs, List.dropWhile_cons]
  simp [h]

theorem skipWs_append_ws (ws xs : List Char) (h : ∀ c ∈ ws, jsonWs c = true) :
    skipWs (ws ++ xs) = skipWs xs := by
  induction ws with
  | nil => rfl
  | cons w ws' ih =>
      rw [List.cons_append, skipWs, List.dropWhile_cons]
      simp only [h w (List.mem_cons_self w ws'), if_true]
      exact ih (fun c hc => h c (List.mem_cons_of_mem w hc))

theorem pad_all_ws (k : Nat) : ∀ c ∈ pad k, jsonWs c = true := by
  intro c hc
  rw [pad] at hc
  rw [List.eq_of_mem_replicate hc]
  rfl

theorem skipWs_lf_pad (k : Nat) (xs : List Char) :
    skipWs ('\n' :: (pad k ++ xs)) = skipWs xs := by
  have h1 : skipWs ('\n' :: (pad k ++ xs)) = skipWs (('\n' :: pad k) ++ xs) := rfl
  rw [h1, skipWs_append_ws]
  intro c hc
  rcases List.mem_cons.mp hc with rfl | hc'
  · rfl
  · exact pad_all_ws k c hc'

theorem parseStrBody_escape (s : List Char) :
    ∀ rest, parseStrBody (escapeStr s ++ '"' :: rest) = some (s, rest) := by
  induction s with
  | nil =>
      intro rest
      cases rest with
      | nil => rfl
      | cons d cs => rfl
  | cons c s ih =>
      intro rest
      have hesc : escapeStr (c :: s) =
          (if c = '"' ∨ c = '\\' then ['\\', c] else [c]) ++ escapeStr s := by
        rw [escapeStr, List.flatMap_cons]
        rfl
      by_cases hc : c = '"' ∨ c = '\\'
      · rw [hesc, if_pos hc]
        show parseStrBody ('\\' :: c :: (escapeStr s ++ '"' :: rest)) = some (c :: s, rest)
        obtain ⟨d, cs, hd⟩ : ∃ d cs, escapeStr s ++ '"' :: rest = d :: cs := by
          cases h : escapeStr s ++ '"' :: rest with
          | nil => exact absurd h (by simp)
          | cons d cs => exact ⟨d, cs, rfl⟩
        rw [hd, parseStrBody, if_neg (by decide), if_pos rfl, if_pos hc, ← hd, ih rest]
        rfl
      · rw [hesc, if_neg hc]
        show parseStrBody (c :: (escapeStr s ++ '"' :: rest)) = some (c :: s, rest)
        push_neg at hc
        obtain ⟨hc1, hc2⟩ := hc
        obtain ⟨d, cs, hd⟩ : ∃ d cs, escapeStr s ++ '"' :: rest = d :: cs := by
          cases h : escapeStr s ++ '"' :: rest with
          | nil => exact absurd h (by simp)
          | cons d cs => exact ⟨d, cs, rfl⟩
        rw [hd, parseStrBody, if_neg hc1, if_neg hc2, ← hd, ih rest]
        rfl

mutual
/-- Fuel sufficient for `parseVal` on the serialization of a value. -/
def sizeV : JVal → Nat
  | JVal.jarr l => sizeL l + 1
  | JVal.jobj o => sizeO o + 1
  | _ => 1
/-- Fuel sufficient for `parseItems` on serialized items. -/
def sizeL : JList → Nat
  | JList.jnil => 1
  | JList.jcons v tl => sizeV v + sizeL tl + 1
/-- Fuel sufficient for `parseMembers` on serialized members. -/
def sizeO : JObj → Nat
  | JObj.onil => 1
  | JObj.ocons _ v tl => sizeV v + sizeO tl + 1
end

theorem sizeV_pos (v : JVal) : 1 ≤ sizeV v := by
  cases v <;> simp [sizeV]

/-- The characters a serialized JSON value can start with. -/
def valueStartChar (c : Char) : Bool :=
  c = lbrace || c = '[' || c = '"' || c = 't' || c = 'f' || c = 'n' ||
    c = '-' || c.isDigit

theorem dumpsNum_head (n : Int) :
    ∃ c cs, dumpsNum n = c :: cs ∧ valueStartChar c = true := by
  rw [dumpsNum]
  by_cases hn : n < 0
  · rw [if_pos hn]
    exact ⟨'-', natDigits n.natAbs, rfl, by decide⟩
  · rw [if_neg hn]
    obtain ⟨hne, hall, -⟩ := natDigits_spec n.toNat
    cases hd : natDigits n.toNat with
    | nil => exact absurd hd hne
    | cons c cs =>
        refine ⟨c, cs, rfl, ?_⟩
        have := hall c (hd ▸ List.mem_cons_self c cs)
        simp [valueStartChar, this]

theorem dumpsVal_head (k : Nat) (v : JVal) :
    ∃ c cs, dumpsVal k v = c :: cs ∧ valueStartChar c = true := by
  cases v with
  | jnull => exact ⟨'n', "ull".data, rfl, by decide⟩
  | jbool b => cases b with
      | true => exact ⟨'t', "rue".data, rfl, by decide⟩
      | false => exact ⟨'f', "alse".data, rfl, by decide⟩
  | jnum n => exact dumpsNum_head n
  | jstr s => exact ⟨'"', escapeStr s ++ ['"'], rfl, by decide⟩
  | jarr l => cases l with
      | jnil => exact ⟨'[', [']'], rfl, by decide⟩
      | jcons v tl =>
          exact ⟨'[', '\n' :: (pad (k + 2) ++ dumpsVal (k + 2) v ++
            dumpsTail (k + 2) tl ++ '\n' :: (pad k ++ [']'])), rfl, by decide⟩
  | jobj o => cases o with
      | onil => exact ⟨lbrace, [rbrace], rfl, by decide⟩
      | ocons key v tl =>
          exact ⟨lbrace, '\n' :: (pad (k + 2) ++ dumpsStr key ++ ':' :: ' ' ::
            (dumpsVal (k + 2) v ++ dumpsOTail (k + 2) tl ++ '\n' :: (pad k ++ [rbrace]))),
            rfl, by decide⟩

theorem valueStartChar_props (c : Char) (h : valueStartChar c = true) :
    jsonWs c = false ∧ ¬ c = ']' ∧ ¬ c = rbrace := by
  simp only [valueStartChar, Bool.or_eq_true, decide_eq_true_eq] at h
  rcases h with ((((((rfl | rfl) | rfl) | rfl) | rfl) | rfl) | rfl) | hd
  · exact ⟨by decide, by decide, by decide⟩
  · exact ⟨by decide, by decide, by decide⟩
  · exact ⟨by decide, by decide, by decide⟩
  · exact ⟨by decide, by decide, by decide⟩
  · exact ⟨by decide, by decide, by decide⟩
  · exact ⟨by decide, by decide, by decide⟩
  · exact ⟨by decide, by decide, by decide⟩
  · refine ⟨?_, ?_, ?_⟩
    · cases e : jsonWs c
      · rfl
      · exfalso
        simp only [jsonWs, Bool.or_eq_true, decide_eq_true_eq] at e
        rcases e with ((rfl | rfl) | rfl) | rfl <;> exact absurd hd (by decide)
    · rintro rfl
      exact absurd hd (by decide)
    · rintro rfl
      exact absurd hd (by decide)

/-- `skipWs` does not move past the start of a serialized value. -/
theorem skipWs_dumpsVal (k : Nat) (v : JVal) (xs : List Char) :
    skipWs (dumpsVal k v ++ xs) = dumpsVal k v ++ xs := by
  obtain ⟨c, cs, hd, hstart⟩ := dumpsVal_head k v
  rw [hd, List.cons_append, skipWs_cons_not_ws]
  exact (valueStartChar_props c hstart).1

theorem parseVal_succ_digit (f : Nat) (cs : List Char) (c : Char) (rest' : List Char)
    (hskip : skipWs cs = c :: rest') (hd : c.isDigit = true) :
    parseVal (f + 1) cs =
      (match parseNat (c :: rest') with
       | some (n, r) => some (JVal.jnum (n : Int), r)
       | none => none) := by
  have h1 : ¬ c = lbrace := by rintro rfl; exact absurd hd (by decide)
  have h2 : ¬ c = '[' := by rintro rfl; exact absurd hd (by decide)
  have h3 : ¬ c = '"' := by rintro rfl; exact absurd hd (by decide)
  have h4 : ¬ c = 't' := by rintro rfl; exact absurd hd (by decide)
  have h5 : ¬ c = 'f' := by rintro rfl; exact absurd hd (by decide)
  have h6 : ¬ c = 'n' := by rintro rfl; exact absurd hd (by decide)
  have h7 : ¬ c = '-' := by rintro rfl; exact absurd hd (by decide)
  rw [parseVal, hskip]
  simp only [h1, h2, h3, h4, h5, h6, h7, hd, if_false, if_true]

theorem headNotDigit_dumpsTail (k : Nat) (tl : JList) (xs : List Char) :
    headNotDigit (dumpsTail k tl ++ '\n' :: xs) = true := by
  cases tl with
  | jnil => rfl
  | jcons w tl2 => rfl

theorem headNotDigit_dumpsOTail (k : Nat) (tl : JObj) (xs : List Char) :
    headNotDigit (dumpsOTail k tl ++ '\n' :: xs) = true := by
  cases tl with
  | onil => rfl
  | ocons key w tl2 => rfl

theorem skipWs_dumpsStr (key W : List Char) :
    skipWs (dumpsStr key ++ W) = dumpsStr key ++ W := by
  show skipWs ('"' :: ((escapeStr key ++ ['"']) ++ W)) =
    '"' :: ((escapeStr key ++ ['"']) ++ W)
  exact skipWs_cons_not_ws '"' _ (by decide)

/-- The parser inverts the serializer: at sufficient fuel, a serialized
value followed by a non-digit remainder parses back to exactly that value
(and similarly for serialized item and member tails). -/
theorem parse_dumps (f : Nat) :
    (∀ v k cs rest, sizeV v ≤ f → skipWs cs = dumpsVal k v ++ rest →
        headNotDigit rest = true → parseVal f cs = some (v, rest)) ∧
    (∀ v tl k k2 cs rest, sizeV v + sizeL tl + 1 ≤ f →
        skipWs cs = dumpsVal k v ++ (dumpsTail k tl ++ '\n' :: (pad k2 ++ (']' :: rest))) →
        parseItems f cs = some (JList.jcons v tl, rest)) ∧
    (∀ key v tl k k2 cs rest, sizeV v + sizeO tl + 1 ≤ f →
        skipWs cs = dumpsStr key ++ ':' :: ' ' :: (dumpsVal k v ++
          (dumpsOTail k tl ++ '\n' :: (pad k2 ++ (rbrace :: rest)))) →
        parseMembers f cs = some (JObj.ocons key v tl, rest)) := by
  induction f with
  | zero =>
      refine ⟨?_, ?_, ?_⟩
      · intro v k cs rest hs
        have := sizeV_pos v
        omega
      · intro v tl k k2 cs rest hs
        omega
      · intro key v tl k k2 cs rest hs
        omega
  | succ f ih =>
      obtain ⟨ihV, ihL, ihO⟩ := ih
      refine ⟨?_, ?_, ?_⟩
      · intro v k cs rest hs hskip hrest
        cases v with
        | jnull =>
            have hskip' : skipWs cs = 'n' :: ("ull".data ++ rest) := hskip
            rw [parseVal, hskip']
            simp [lbrace]
            exact expectChars_self "ull".data rest
        | jbool b =>
            cases b with
            | true =>
                have hskip' : skipWs cs = 't' :: ("rue".data ++ rest) := hskip
                rw [parseVal, hskip']
                simp [lbrace]
                exact expectChars_self "rue".data rest
            | false =>
                have hskip' : skipWs cs = 'f' :: ("alse".data ++ rest) := hskip
                rw [parseVal, hskip']
                simp [lbrace]
                exact expectChars_self "alse".data rest
        | jnum n =>
            by_cases hn : n < 0
            · have hskip' : skipWs cs = '-' :: (natDigits n.natAbs ++ rest) := by
                rw [hskip]
                show dumpsNum n ++ rest = _
                rw [dumpsNum, if_pos hn]
                rfl
              rw [parseVal, hskip']
              simp only [lbrace]
              simp
              rw [parseNat_natDigits n.natAbs rest hrest]
              have hval : -((n.natAbs : Int)) = n := by omega
              show some (JVal.jnum (-(n.natAbs : Int)), rest) = some (JVal.jnum n, rest)
              rw [hval]
            · obtain ⟨c0, ds, hd⟩ : ∃ c0 ds, natDigits n.toNat = c0 :: ds := by
                obtain ⟨hne, -, -⟩ := natDigits_spec n.toNat
                cases h : natDigits n.toNat with
                | nil => exact absurd h hne
                | cons c0 ds => exact ⟨c0, ds, rfl⟩
              have hdig : c0.isDigit = true := by
                obtain ⟨-, hall, -⟩ := natDigits_spec n.toNat
                exact hall c0 (hd ▸ List.mem_cons_self c0 ds)
              have hskip' : skipWs cs = c0 :: (ds ++ rest) := by
                rw [hskip]
                show dumpsNum n ++ rest = _
                rw [dumpsNum, if_neg hn, hd]
                rfl
              rw [parseVal_succ_digit f cs c0 (ds ++ rest) hskip' hdig]
              have hjoin : c0 :: (ds ++ rest) = natDigits n.toNat ++ rest := by
                rw [hd]
                rfl
              rw [hjoin, parseNat_natDigits n.toNat rest hrest]
              have hval : ((n.toNat : Int)) = n := by omega
              show some (JVal.jnum ((n.toNat : Int)), rest) = some (JVal.jnum n, rest)
              rw [hval]
        | jstr s =>
            have hskip' : skipWs cs = '"' :: ((escapeStr s ++ ['"']) ++ rest) := hskip
            rw [parseVal, hskip']
            have he : (escapeStr s ++ ['"']) ++ rest = escapeStr s ++ '"' :: rest := by
              simp
            rw [he]
            simp [lbrace, parseStrBody_escape s rest]
        | jarr l =>
            cases l with
            | jnil =>
                have hskip' : skipWs cs = '[' :: (']' :: rest) := hskip
                rw [parseVal, hskip']
                simp only []
                rw [if_pos trivial, skipWs_cons_not_ws ']' rest (by decide)]
                simp only []
                rw [if_neg (by decide), if_pos trivial]
            | jcons v tl =>
                have hskip' : skipWs cs = '[' :: ('\n' ::
                    ((pad (k + 2) ++ dumpsVal (k + 2) v ++ dumpsTail (k + 2) tl ++
                      '\n' :: (pad k ++ [']'])) ++ rest)) := hskip
                rw [parseVal, hskip']
                simp only []
                have hinner : skipWs ('\n' ::
                    ((pad (k + 2) ++ dumpsVal (k + 2) v ++ dumpsTail (k + 2) tl ++
                      '\n' :: (pad k ++ [']'])) ++ rest)) =
                    dumpsVal (k + 2) v ++
                      (dumpsTail (k + 2) tl ++ '\n' :: (pad k ++ (']' :: rest))) := by
                  have e1 : (pad (k + 2) ++ dumpsVal (k + 2) v ++ dumpsTail (k + 2) tl ++
                      '\n' :: (pad k ++ [']'])) ++ rest =
                      pad (k + 2) ++ (dumpsVal (k + 2) v ++
                        (dumpsTail (k + 2) tl ++ '\n' :: (pad k ++ (']' :: rest)))) := by
                    simp [List.append_assoc]
                  rw [e1, skipWs_lf_pad]
                  exact skipWs_dumpsVal (k + 2) v _
                rw [hinner]
                obtain ⟨c2, cs2, hd, hstart⟩ := dumpsVal_head (k + 2) v
                rw [show dumpsVal (k + 2) v ++
                    (dumpsTail (k + 2) tl ++ '\n' :: (pad k ++ (']' :: rest))) =
                    c2 :: (cs2 ++ (dumpsTail (k + 2) tl ++ '\n' :: (pad k ++ (']' :: rest))))
                  from by rw [hd, List.cons_append]]
                rw [if_pos trivial]
                simp only []
                rw [if_neg (valueStartChar_props c2 hstart).2.1]
                have hfuel : sizeV v + sizeL tl + 1 ≤ f := by
                  simp [sizeV, sizeL] at hs
                  omega
                rw [ihL v tl (k + 2) k _ rest hfuel hinner]
                rfl
        | jobj o =>
            cases o with
            | onil =>
                have hskip' : skipWs cs = lbrace :: (rbrace :: rest) := hskip
                rw [parseVal, hskip']
                simp only []
                rw [if_pos trivial, skipWs_cons_not_ws rbrace rest (by decide)]
                simp only []
                rw [if_pos trivial]
            | ocons key v tl =>
                have hskip' : skipWs cs = lbrace :: ('\n' ::
                    ((pad (k + 2) ++ dumpsStr key ++ ':' :: ' ' ::
                      (dumpsVal (k + 2) v ++ dumpsOTail (k + 2) tl ++
                        '\n' :: (pad k ++ [rbrace]))) ++ rest)) := hskip
                rw [parseVal, hskip']
                simp only []
                have hinner : skipWs ('\n' ::
                    ((pad (k + 2) ++ dumpsStr key ++ ':' :: ' ' ::
                      (dumpsVal (k + 2) v ++ dumpsOTail (k + 2) tl ++
                        '\n' :: (pad k ++ [rbrace]))) ++ rest)) =
                    dumpsStr key ++ ':' :: ' ' :: (dumpsVal (k + 2) v ++
                      (dumpsOTail (k + 2) tl ++ '\n' :: (pad k ++ (rbrace :: rest)))) := by
                  have e1 : (pad (k + 2) ++ dumpsStr key ++ ':' :: ' ' ::
                      (dumpsVal (k + 2) v ++ dumpsOTail (k + 2) tl ++
                        '\n' :: (pad k ++ [rbrace]))) ++ rest =
                      pad (k + 2) ++ (dumpsStr key ++ ':' :: ' ' ::
                        (dumpsVal (k + 2) v ++ (dumpsOTail (k + 2) tl ++
                          '\n' :: (pad k ++ (rbrace :: rest))))) := by
                    simp [List.append_assoc]
                  rw [e1, skipWs_lf_pad]
                  exact skipWs_dumpsStr key _
                rw [hinner]
                rw [show dumpsStr key ++ ':' :: ' ' :: (dumpsVal (k + 2) v ++
                    (dumpsOTail (k + 2) tl ++ '\n' :: (pad k ++ (rbrace :: rest)))) =
                    '"' :: ((escapeStr key ++ ['"']) ++ ':' :: ' ' :: (dumpsVal (k + 2) v ++
                      (dumpsOTail (k + 2) tl ++ '\n' :: (pad k ++ (rbrace :: rest)))))
                  from rfl]
                rw [if_pos trivial]
                simp only []
                rw [if_neg (by decide)]
                have hfuel : sizeV v + sizeO tl + 1 ≤ f := by
                  simp [sizeV, sizeO] at hs
                  omega
                rw [ihO key v tl (k + 2) k _ rest hfuel hinner]
                rfl
      · intro v tl k k2 cs rest hfuel hskip
        rw [parseItems]
        have hv : parseVal f cs =
            some (v, dumpsTail k tl ++ '\n' :: (pad k2 ++ (']' :: rest))) :=
          ihV v k cs _ (by omega) hskip (headNotDigit_dumpsTail k tl _)
        rw [hv]
        simp only []
        cases tl with
        | jnil =>
            have hafter : skipWs (dumpsTail k JList.jnil ++
                '\n' :: (pad k2 ++ (']' :: rest))) = ']' :: rest := by
              show skipWs ('\n' :: (pad k2 ++ (']' :: rest))) = ']' :: rest
              rw [skipWs_lf_pad]
              exact skipWs_cons_not_ws ']' rest (by decide)
            rw [hafter]
            simp only []
            rw [if_neg (by decide), if_pos trivial]
        | jcons w tl2 =>
            have hafter : skipWs (dumpsTail k (JList.jcons w tl2) ++
                '\n' :: (pad k2 ++ (']' :: rest))) =
                ',' :: ('\n' :: ((pad k ++ dumpsVal k w ++ dumpsTail k tl2) ++
                  '\n' :: (pad k2 ++ (']' :: rest)))) := by
              show skipWs (',' :: ('\n' :: ((pad k ++ dumpsVal k w ++ dumpsTail k tl2) ++
                  '\n' :: (pad k2 ++ (']' :: rest))))) = _
              exact skipWs_cons_not_ws ',' _ (by decide)
            rw [hafter]
            simp only []
            rw [if_pos trivial]
            have hinner : skipWs ('\n' :: ((pad k ++ dumpsVal k w ++ dumpsTail k tl2) ++
                '\n' :: (pad k2 ++ (']' :: rest)))) =
                dumpsVal k w ++ (dumpsTail k tl2 ++ '\n' :: (pad k2 ++ (']' :: rest))) := by
              have e1 : (pad k ++ dumpsVal k w ++ dumpsTail k tl2) ++
                  '\n' :: (pad k2 ++ (']' :: rest)) =
                  pad k ++ (dumpsVal k w ++
                    (dumpsTail k tl2 ++ '\n' :: (pad k2 ++ (']' :: rest)))) := by
                simp [List.append_assoc]
              rw [e1, skipWs_lf_pad]
              exact skipWs_dumpsVal k w _
            have hfuel2 : sizeV w + sizeL tl2 + 1 ≤ f := by
              have hv1 := sizeV_pos v
              simp only [sizeL] at hfuel
              omega
            rw [ihL w tl2 k k2 _ rest hfuel2 hinner]
            rfl
      · intro key v tl k k2 cs rest hfuel hskip
        rw [parseMembers]
        have hskip' : skipWs cs = '"' :: ((escapeStr key ++ ['"']) ++ ':' :: ' ' ::
            (dumpsVal k v ++ (dumpsOTail k tl ++
              '\n' :: (pad k2 ++ (rbrace :: rest))))) := hskip
        rw [hskip']
        simp only []
        rw [if_pos trivial]
        rw [show (escapeStr key ++ ['"']) ++ ':' :: ' ' ::
            (dumpsVal k v ++ (dumpsOTail k tl ++ '\n' :: (pad k2 ++ (rbrace :: rest)))) =
            escapeStr key ++ '"' :: (':' :: ' ' ::
              (dumpsVal k v ++ (dumpsOTail k tl ++ '\n' :: (pad k2 ++ (rbrace :: rest)))))
          from by simp]
        rw [parseStrBody_escape key _]
        simp only []
        rw [skipWs_cons_not_ws ':' _ (by decide)]
        simp only []
        rw [if_pos trivial]
        have hvs : skipWs (' ' :: (dumpsVal k v ++ (dumpsOTail k tl ++
            '\n' :: (pad k2 ++ (rbrace :: rest))))) =
            dumpsVal k v ++ (dumpsOTail k tl ++ '\n' :: (pad k2 ++ (rbrace :: rest))) := by
          have e1 : (' ' :: (dumpsVal k v ++ (dumpsOTail k tl ++
              '\n' :: (pad k2 ++ (rbrace :: rest))))) =
              [' '] ++ (dumpsVal k v ++ (dumpsOTail k tl ++
                '\n' :: (pad k2 ++ (rbrace :: rest)))) := rfl
          rw [e1, skipWs_append_ws [' '] _ (by intro c hc; simp at hc; subst hc; rfl)]
          exact skipWs_dumpsVal k v _
        have hv : parseVal f (' ' :: (dumpsVal k v ++ (dumpsOTail k tl ++
            '\n' :: (pad k2 ++ (rbrace :: rest))))) =
            some (v, dumpsOTail k tl ++ '\n' :: (pad k2 ++ (rbrace :: rest))) :=
          ihV v k _ _ (by omega) hvs (headNotDigit_dumpsOTail k tl _)
        rw [hv]
        simp only []
        cases tl with
        | onil =>
            have hafter : skipWs (dumpsOTail k JObj.onil ++
                '\n' :: (pad k2 ++ (rbrace :: rest))) = rbrace :: rest := by
              show skipWs ('\n' :: (pad k2 ++ (rbrace :: rest))) = rbrace :: rest
              rw [skipWs_lf_pad]
              exact skipWs_cons_not_ws rbrace rest (by decide)
            rw [hafter]
            simp only []
            rw [if_neg (by decide), if_pos trivial]
        | ocons key2 w tl2 =>
            have hafter : skipWs (dumpsOTail k (JObj.ocons key2 w tl2) ++
                '\n' :: (pad k2 ++ (rbrace :: rest))) =
                ',' :: ('\n' :: ((pad k ++ dumpsStr key2 ++ ':' :: ' ' ::
                  (dumpsVal k w ++ dumpsOTail k tl2)) ++
                  '\n' :: (pad k2 ++ (rbrace :: rest)))) := by
              show skipWs (',' :: ('\n' :: ((pad k ++ dumpsStr key2 ++ ':' :: ' ' ::
                  (dumpsVal k w ++ dumpsOTail k tl2)) ++
                  '\n' :: (pad k2 ++ (rbrace :: rest))))) = _
              exact skipWs_cons_not_ws ',' _ (by decide)
            rw [hafter]
            simp only []
            rw [if_pos trivial]
            have hinner : skipWs ('\n' :: ((pad k ++ dumpsStr key2 ++ ':' :: ' ' ::
                (dumpsVal k w ++ dumpsOTail k tl2)) ++
                '\n' :: (pad k2 ++ (rbrace :: rest)))) =
                dumpsStr key2 ++ ':' :: ' ' :: (dumpsVal k w ++
                  (dumpsOTail k tl2 ++ '\n' :: (pad k2 ++ (rbrace :: rest)))) := by
              have e1 : (pad k ++ dumpsStr key2 ++ ':' :: ' ' ::
                  (dumpsVal k w ++ dumpsOTail k tl2)) ++
                  '\n' :: (pad k2 ++ (rbrace :: rest)) =
                  pad k ++ (dumpsStr key2 ++ ':' :: ' ' :: (dumpsVal k w ++
                    (dumpsOTail k tl2 ++ '\n' :: (pad k2 ++ (rbrace :: rest))))) := by
                simp [List.append_assoc]
              rw [e1, skipWs_lf_pad]
              exact skipWs_dumpsStr key2 _
            have hfuel2 : sizeV w + sizeO tl2 + 1 ≤ f := by
              have hv1 := sizeV_pos v
              simp only [sizeO] at hfuel
              omega
            rw [ihO key2 w tl2 k k2 _ rest hfuel2 hinner]
            rfl

mutual
theorem sizeV_le_dumps (k : Nat) (v : JVal) : sizeV v ≤ (dumpsVal k v).length := by
  cases v with
  | jnull => simp [sizeV, dumpsVal]
  | jbool b => cases b <;> simp [sizeV, dumpsVal]
  | jnum n =>
      have h : dumpsNum n ≠ [] := by
        rw [dumpsNum]
        by_cases hn : n < 0
        · rw [if_pos hn]
          simp
        · rw [if_neg hn]
          exact (natDigits_spec n.toNat).1
      have : 1 ≤ (dumpsNum n).length := by
        cases hd : dumpsNum n with
        | nil => exact absurd hd h
        | cons c cs => simp
      simpa [sizeV, dumpsVal] using this
  | jstr s => simp [sizeV, dumpsVal, dumpsStr]
  | jarr l =>
      cases l with
      | jnil => simp [sizeV, sizeL, dumpsVal]
      | jcons v tl =>
          have h1 := sizeV_le_dumps (k + 2) v
          have h2 := sizeL_le_dumps (k + 2) tl
          simp only [sizeV, sizeL, dumpsVal, List.length_cons, List.length_append]
          omega
  | jobj o =>
      cases o with
      | onil => simp [sizeV, sizeO, dumpsVal]
      | ocons key v tl =>
          have h1 := sizeV_le_dumps (k + 2) v
          have h2 := sizeO_le_dumps (k + 2) tl
          simp only [sizeV, sizeO, dumpsVal, List.length_cons, List.length_append]
          omega
theorem sizeL_le_dumps (k : Nat) (tl : JList) : sizeL tl ≤ (dumpsTail k tl).length + 1 := by
  cases tl with
  | jnil => simp [sizeL, dumpsTail]
  | jcons v tl2 =>
      have h1 := sizeV_le_dumps k v
      have h2 := sizeL_le_dumps k tl2
      simp only [sizeL, dumpsTail, List.length_cons, List.length_append]
      omega
theorem sizeO_le_dumps (k : Nat) (tl : JObj) : sizeO tl ≤ (dumpsOTail k tl).length + 1 := by
  cases tl with
  | onil => simp [sizeO, dumpsOTail]
  | ocons key v tl2 =>
      have h1 := sizeV_le_dumps k v
      have h2 := sizeO_le_dumps k tl2
      simp only [sizeO, dumpsOTail, List.length_cons, List.length_append]
      omega
end

/-- Parsing the canonical serialization returns exactly the original value:
the 2-space-indent serializer is lossless, preserving mapping key order and
the null/boolean/number/string distinctions. -/
theorem jsonParse_dumpsTop (v : JVal) : jsonParse (dumpsTop v) = some v := by
  rw [jsonParse]
  have hfuel : sizeV v ≤ (dumpsTop v).length + 1 := by
    have := sizeV_le_dumps 0 v
    have e : (dumpsTop v).length = (dumpsVal 0 v).length := rfl
    omega
  have hskip : skipWs (dumpsTop v) = dumpsVal 0 v ++ ([] : List Char) := by
    rw [List.append_nil]
    show skipWs (dumpsVal 0 v) = dumpsVal 0 v
    obtain ⟨c, cs, hd, hstart⟩ := dumpsVal_head 0 v
    rw [hd]
    exact skipWs_cons_not_ws c cs (valueStartChar_props c hstart).1
  rw [(parse_dumps ((dumpsTop v).length + 1)).1 v 0 (dumpsTop v) [] hfuel hskip rfl]
  rfl

/-- `read_file` from main.py (lines 71-105), on file content already read
from disk.  The yaml branch (`yaml.safe_load` then `yaml.dump(..., indent=2)`)
uses an external library, passed in as the `yparse`/`ydump` parameters; the
json branch is `json.load` then `json.dumps(..., indent=2)`; the text branch
returns the content unchanged.  A parse failure yields `none`. -/
def read_file (yparse : List Char → Option JVal) (ydump : JVal → List Char)
    (ft : FileType) (content : List Char) : Option (List Char) :=
  match ft with
  | FileType.yaml => (yparse content).map ydump
  | FileType.json => (jsonParse content).map dumpsTop
  | FileType.text => some content

/-- The edit script `generate_diff_html` (main.py lines 127-146) computes:
optional whitespace normalization of both texts, then the diff. -/
def generate_diff (text1 text2 : List Char) (iw : Bool) : List Span :=
  computeDiff (if iw then normalizeWhitespace text1 else text1)
    (if iw then normalizeWhitespace text2 else text2)

/-- main.py lines 164-167: the file type used for the comparison — the
declared type if given, otherwise the type detected from the FIRST file. -/
def mainFileType (declared : Option FileType) (p1 : List Char) : FileType :=
  match declared with
  | some t => t
  | none => detect_file_type p1

/-- main.py lines 166-169: the mismatch warning is emitted exactly when no
type was declared and the two detected types differ. -/
def mainTypeWarning (declared : Option FileType) (p1 p2 : List Char) : Bool :=
  match declared with
  | some _ => false
  | none => decide (¬ detect_file_type p1 = detect_file_type p2)

/-- main.py lines 180-181: both files are read with the one selected
`file_type`. -/
def mainReadPair (yparse : List Char → Option JVal) (ydump : JVal → List Char)
    (declared : Option FileType) (p1 p2 c1 c2 : List Char) :
    Option (List Char) × Option (List Char) :=
  (read_file yparse ydump (mainFileType declared p1) c1,
   read_file yparse ydump (mainFileType declared p1) c2)

/-- main.py lines 179-188: the pipeline after type selection — read both
files, abort (`sys.exit(1)`, modelled as `none`) if either read failed,
otherwise produce the diff. -/
def runComparison (yparse : List Char → Option JVal) (ydump : JVal → List Char)
    (ft : FileType) (c1 c2 : List Char) (iw : Bool) : Option (List Span) :=
  match read_file yparse ydump ft c1, read_file yparse ydump ft c2 with
  | some t1, some t2 => some (generate_diff t1 t2 iw)
  | _, _ => none

/-- C3: if the content of a file read as yaml or json fails to parse as
that type, the whole comparison aborts: the pipeline yields no diff output,
with no fallback to text diffing. -/
theorem c3_parse_error_aborts (yparse : List Char → Option JVal)
    (ydump : JVal → List Char) (ft : FileType) (c1 c2 : List Char) (iw : Bool)
    (h : (ft = FileType.json ∧ (jsonParse c1 = none ∨ jsonParse c2 = none)) ∨
         (ft = FileType.yaml ∧ (yparse c1 = none ∨ yparse c2 = none))) :
    runComparison yparse ydump ft c1 c2 iw = none := by
  rcases h with ⟨rfl, h1 | h1⟩ | ⟨rfl, h1 | h1⟩ <;>
    simp [runComparison, read_file, h1]

/-- Witness for C3 at the spec's end-to-end scenario 3: malformed JSON with
an unquoted key. -/
theorem c3_parse_error_aborts_witness :
    jsonParse ("\x7ba: 1\x7d").data = none ∧
    runComparison (fun _ => none) (fun _ => []) FileType.json
      ("\x7ba: 1\x7d").data "x".data false = none :=
  ⟨rfl, c3_parse_error_aborts _ _ _ _ _ _ (Or.inl ⟨rfl, Or.inl rfl⟩)⟩

/-- C4: for the json type, canonicalization parses the content and, on
success, re-serializes it with the fixed 2-space indentation (`dumpsTop`),
and the serialization is lossless: parsing the canonical text returns
exactly the same value, mapping key order and numeric/string/boolean/null
distinctions included (no type coercion). -/
theorem c4_json_canonicalization (yparse : List Char → Option JVal)
    (ydump : JVal → List Char) (content : List Char) (v : JVal)
    (h : jsonParse content = some v) :
    read_file yparse ydump FileType.json content = some (dumpsTop v) ∧
    jsonParse (dumpsTop v) = some v := by
  constructor
  · show (jsonParse content).map dumpsTop = some (dumpsTop v)
    rw [h]
    rfl
  · exact jsonParse_dumpsTop v

/-- Witness for C4 at a concrete two-key object, exercising key order. -/
theorem c4_json_canonicalization_witness :
    jsonParse ("\x7b\"b\": 2, \"a\": 1\x7d").data =
      some (JVal.jobj (JObj.ocons "b".data (JVal.jnum 2)
        (JObj.ocons "a".data (JVal.jnum 1) JObj.onil))) ∧
    (read_file (fun _ => none) (fun _ => []) FileType.json
        ("\x7b\"b\": 2, \"a\": 1\x7d").data =
      some (dumpsTop (JVal.jobj (JObj.ocons "b".data (JVal.jnum 2)
        (JObj.ocons "a".data (JVal.jnum 1) JObj.onil)))) ∧
      jsonParse (dumpsTop (JVal.jobj (JObj.ocons "b".data (JVal.jnum 2)
        (JObj.ocons "a".data (JVal.jnum 1) JObj.onil)))) =
      some (JVal.jobj (JObj.ocons "b".data (JVal.jnum 2)
        (JObj.ocons "a".data (JVal.jnum 1) JObj.onil)))) :=
  ⟨rfl, c4_json_canonicalization _ _ _ _ rfl⟩

/-- C2 counterexample: with no declared type, paths `a.yaml` and `b.json`
produce the warning, but the type used for the second file is the first
file's detected yaml, not the second file's own detected json: the second
read goes through the yaml branch (here failing) even though the content
`[]` reads fine under the second file's own detected type. -/
theorem c2_counterexample_second_file_type :
    mainTypeWarning none "a.yaml".data "b.json".data = true ∧
    mainFileType none "a.yaml".data = FileType.yaml ∧
    detect_file_type "b.json".data = FileType.json ∧
    (mainReadPair (fun _ => none) (fun _ => []) none "a.yaml".data "b.json".data
      "[]".data "[]".data).2 = none ∧
    read_file (fun _ => none) (fun _ => []) (detect_file_type "b.json".data)
      "[]".data = some "[]".data :=
  ⟨rfl, rfl, rfl, rfl, rfl⟩

/-- C2 (amended): when no type is declared and the detected types differ,
the program warns but proceeds, and both files are parsed according to the
type detected from the first file. -/
theorem c2_warn_then_first_file_type (yparse : List Char → Option JVal)
    (ydump : JVal → List Char) (p1 p2 c1 c2 : List Char)
    (h : ¬ detect_file_type p1 = detect_file_type p2) :
    mainTypeWarning none p1 p2 = true ∧
    mainReadPair yparse ydump none p1 p2 c1 c2 =
      (read_file yparse ydump (detect_file_type p1) c1,
       read_file yparse ydump (detect_file_type p1) c2) := by
  constructor
  · simp [mainTypeWarning, h]
  · rfl

/-- Witness for the amended C2 at concrete mismatching paths. -/
theorem c2_warn_then_first_file_type_witness :
    (¬ detect_file_type "a.yaml".data = detect_file_type "b.json".data) ∧
    (mainTypeWarning none "a.yaml".data "b.json".data = true ∧
      mainReadPair (fun _ => none) (fun _ => []) none "a.yaml".data "b.json".data
        "x".data "y".data =
      (read_file (fun _ => none) (fun _ => []) (detect_file_type "a.yaml".data) "x".data,
       read_file (fun _ => none) (fun _ => []) (detect_file_type "a.yaml".data) "y".data)) :=
  ⟨by decide, c2_warn_then_first_file_type _ _ _ _ _ _ (by decide)⟩

end MC
